import Mathlib

/-!
Shallow embedding of the batch file/folder transform pipeline of the
BunPGPtui repository (src/types.ts, class Menu).

Conventions used throughout:
* JavaScript strings are modelled as `List Char`; byte buffers (Uint8Array)
  as `List Nat`.
* Filesystem paths appear in two forms: as character lists when the code
  manipulates them character-wise (suffix stripping, extension parsing), and
  as lists of canonical path segments when the code compares canonical
  absolute paths (the recursive directory walk).
* Fallible asynchronous steps (mkdir, the CryptoEngine calls, the stream
  write) are modelled by `Except` values carried inside each task: a task
  record holds the outcome each of its effectful steps would produce, and
  the loop body is a pure function of those outcomes.
-/

/-- Output format chosen for an encryption run
(`'armored' | 'binary'`, src/types.ts). -/
inductive PgpFormat where
  | armored
  | binary
deriving DecidableEq, Repr

/-- Collision policy prompt result
(`'overwrite' | 'skip' | 'abort'`, src/types.ts lines 1604-1611). -/
inductive OutputPolicy where
  | overwrite
  | skip
  | abort
deriving DecidableEq, Repr

/-- src/types.ts line 1444:
`const outputExtension = outputFormat === 'armored' ? '.asc' : '.pgp';`. -/
def outputExtension (fmt : PgpFormat) : List Char :=
  match fmt with
  | .armored => ".asc".data
  | .binary => ".pgp".data

/-- The suffixes recognized by the regex `/\.(pgp|gpg|asc)$/i` of
`stripEncryptedExtension` and `suggestDecryptedOutputPath`, in lower case.
Each is exactly four characters long. -/
def knownEncSuffixes : List (List Char) :=
  [".pgp".data, ".gpg".data, ".asc".data]

/-- Whether `p` ends, case-insensitively, in one of the recognized encrypted
suffixes: exactly the condition under which `/\.(pgp|gpg|asc)$/i` matches
(the regex is anchored at the end and matches exactly four characters). -/
def endsWithKnownSuffix (p : List Char) : Bool :=
  decide ((p.drop (p.length - 4)).map Char.toLower ∈ knownEncSuffixes)

/-- src/types.ts lines 1923-1936, `Menu.stripEncryptedExtension`:
`pathValue.replace(/\.(pgp|gpg|asc)$/i, '')`; when the regex does not match
(the replacement leaves the string unchanged), `pathValue + '.decrypted'`
is returned instead. -/
def stripEncryptedExtension (pathValue : List Char) : List Char :=
  if endsWithKnownSuffix pathValue then pathValue.take (pathValue.length - 4)
  else pathValue ++ ".decrypted".data

/-- src/types.ts lines 1818-1831, `Menu.suggestDecryptedOutputPath`: the
independently maintained single-file variant, with the identical regex
`/\.(pgp|gpg|asc)$/i` and the identical `'.decrypted'` fallback. -/
def suggestDecryptedOutputPath (inputPath : List Char) : List Char :=
  if endsWithKnownSuffix inputPath then inputPath.take (inputPath.length - 4)
  else inputPath ++ ".decrypted".data

/-- The whitespace characters trimmed by JavaScript `String.prototype.trim`
that can occur in terminal input. -/
def isJsSpace (c : Char) : Bool :=
  c == ' ' || c == '\t' || c == '\n' || c == '\r'

/-- `value.trim()`: remove leading and trailing whitespace. -/
def trimChars (l : List Char) : List Char :=
  ((l.dropWhile isJsSpace).reverse.dropWhile isJsSpace).reverse

/-- `input.split(',')`: split on every comma; the empty string splits to
`[""]`, matching JavaScript. -/
def splitOnComma : List Char → List (List Char)
  | [] => [[]]
  | c :: rest =>
    let ts := splitOnComma rest
    if c == ',' then [] :: ts
    else
      match ts with
      | [] => [[c]]
      | t :: ts2 => (c :: t) :: ts2

/-- src/types.ts lines 1887-1890: `input.split(',').map(trim).filter(Boolean)`
(`filter(Boolean)` drops exactly the empty strings). -/
def rawTokens (input : List Char) : List (List Char) :=
  ((splitOnComma input).map trimChars).filter (fun t => t ≠ [])

/-- src/types.ts lines 1896-1898: normalize one surviving token —
`value.startsWith('.') ? value.toLowerCase() : '.' + value.toLowerCase()`. -/
def normalizeExtToken (value : List Char) : List Char :=
  if value.head? = some '.' then value.map Char.toLower
  else '.' :: value.map Char.toLower

/-- src/types.ts lines 1878-1899, `Menu.parseExtensionFilter`. -/
def parseExtensionFilter (input : List Char) (defaults : List (List Char)) :
    List (List Char) :=
  let raw := rawTokens input
  if raw = [] then defaults else raw.map normalizeExtToken

/-! ## DirectoryWalker (src/types.ts lines 1833-1876, `Menu.listFilesRecursive`)

The filesystem is modelled as a tree of entries; an entry is a plain file, a
directory with children, or anything else (symlink, socket, device — the
`else` kinds `readdir` can report). Canonical absolute paths are modelled as
lists of path segments, so that `resolve(join(rootDir, entry.name))` becomes
`rootDir ++ [entry.name]` and the source's exclusion test
`resolvedEntry === normalizedExclude || resolvedEntry.startsWith(normalizedExclude + sep)`
becomes "the exclude segment list is a prefix of the entry's segment list". -/

mutual
inductive FsEntry where
  | file (name : String)
  | dir (name : String) (children : FsEntryList)
  | other (name : String)
inductive FsEntryList where
  | nil
  | cons (e : FsEntry) (rest : FsEntryList)
end

/-- The exclusion test of src/types.ts lines 1852-1859, on canonical segment
lists: the entry is the exclude directory itself or nested under it. -/
def isExcluded (excl : Option (List String)) (entryPath : List String) : Bool :=
  match excl with
  | none => false
  | some ex => ex.isPrefixOf entryPath

mutual
/-- One iteration of the `for (const entry of entries)` loop of
`listFilesRecursive`: the exclusion check runs first for every entry kind;
directories are recursed into, plain files are yielded, other kinds are
skipped. -/
def listFilesEntry (rootDir : List String) (excl : Option (List String)) :
    FsEntry → List (List String)
  | .file n =>
    if isExcluded excl (rootDir ++ [n]) then [] else [rootDir ++ [n]]
  | .dir n children =>
    if isExcluded excl (rootDir ++ [n]) then []
    else listFilesRecursive (rootDir ++ [n]) excl children
  | .other n =>
    if isExcluded excl (rootDir ++ [n]) then [] else []

/-- src/types.ts lines 1833-1876, `Menu.listFilesRecursive`: concatenate the
yields of each directory entry in enumeration order. -/
def listFilesRecursive (rootDir : List String) (excl : Option (List String)) :
    FsEntryList → List (List String)
  | .nil => []
  | .cons e rest =>
    listFilesEntry rootDir excl e ++ listFilesRecursive rootDir excl rest
end

mutual
/-- `rel` addresses a plain file when read from this single entry. -/
def entryFileAt : FsEntry → List String → Bool
  | .file n, rel => rel == [n]
  | .dir n children, rel =>
    match rel with
    | m :: rest => n == m && listFileAt children rest
    | [] => false
  | .other _, _ => false

/-- `rel` addresses a plain file somewhere in this entry list. -/
def listFileAt : FsEntryList → List String → Bool
  | .nil, _ => false
  | .cons e rest, rel => entryFileAt e rel || listFileAt rest rel
end

/-- The `entry.name` field `readdir` reports. -/
def FsEntry.name : FsEntry → String
  | .file n => n
  | .dir n _ => n
  | .other n => n

mutual
/-- Remove, at every depth, the entries living under the exclude path
(used to state that the walk prunes the excluded subtree entirely). -/
def pruneEntry (ex rootDir : List String) : FsEntry → FsEntry
  | .file n => .file n
  | .dir n children => .dir n (pruneList ex (rootDir ++ [n]) children)
  | .other n => .other n

/-- Remove the excluded entries from one directory level and recursively
from every surviving subdirectory. -/
def pruneList (ex rootDir : List String) : FsEntryList → FsEntryList
  | .nil => .nil
  | .cons e rest =>
    if isExcluded (some ex) (rootDir ++ [e.name]) then pruneList ex rootDir rest
    else .cons (pruneEntry ex rootDir e) (pruneList ex rootDir rest)
end

/-! ## StreamSink (src/types.ts lines 1743-1816, `Menu.writeOutputToFile`)

The streaming branch is a strictly sequential async loop; we model one
execution of it as the list of observable events it performs, driven by the
prescribed behaviour of the source stream (a list of read outcomes) and of
the destination writer (which chunks it accepts). `readAwait` is the
completed `await reader.read()`, `writeChunk` is `writer.write(value)`,
`writeAwaited` is the awaited completion of that write (the backpressure
acknowledgement), and `releaseLock` / `writerEnd` are the two statements of
the `finally` block. -/

/-- One outcome of `await reader.read()` before exhaustion: a chunk (whose
payload may be absent — the `if (!value) continue` guard), or a rejection. -/
inductive StreamItem where
  | chunk (data : Option (List Nat))
  | readError (msg : List Char)
deriving DecidableEq, Repr

/-- A chunk of a `ReadableStream<string>` before `TextEncoderStream`. -/
inductive TStreamItem where
  | chunk (data : Option (List Char))
  | readError (msg : List Char)
deriving DecidableEq, Repr

/-- Observable events of one `writeOutputToFile` execution. -/
inductive WEv where
  | bufferedWrite
  | readAwait
  | writeChunk (data : List Nat)
  | writeAwaited
  | releaseLock
  | writerEnd
deriving DecidableEq, Repr

/-- UTF-8 encoding of one text chunk, abstracted (`TextEncoderStream`). -/
def utf8Encode (s : List Char) : List Nat :=
  s.map Char.toNat

/-- `stream.pipeThrough(new TextEncoderStream())`: encode each delivered
chunk, propagate source errors. -/
def encodeItems : List TStreamItem → List StreamItem
  | [] => []
  | .chunk none :: rest => .chunk none :: encodeItems rest
  | .chunk (some s) :: rest => .chunk (some (utf8Encode s)) :: encodeItems rest
  | .readError m :: rest => .readError m :: encodeItems rest

/-- The `while (true)` pull-write loop (src/types.ts lines 1796-1805).
`writeOk` prescribes whether the writer accepts a given chunk. Returns the
events of the loop body and whether it finished without throwing; the first
event of the result is always the `await reader.read()`. -/
def streamWriteLoop (writeOk : List Nat → Bool) : List StreamItem → List WEv × Bool
  | [] => ([.readAwait], true)
  | .readError _ :: _ => ([.readAwait], false)
  | .chunk none :: rest =>
    let r := streamWriteLoop writeOk rest
    (.readAwait :: r.1, r.2)
  | .chunk (some d) :: rest =>
    if writeOk d then
      let r := streamWriteLoop writeOk rest
      (.readAwait :: .writeChunk d :: .writeAwaited :: r.1, r.2)
    else ([.readAwait, .writeChunk d], false)

/-- The loop wrapped in its `try`/`finally` (src/types.ts lines 1795-1815):
whatever the loop does, `reader.releaseLock()` and `writer.end()` run after
it. -/
def writeStreamToFile (writeOk : List Nat → Bool) (items : List StreamItem) :
    List WEv × Bool :=
  let r := streamWriteLoop writeOk items
  (r.1 ++ [.releaseLock, .writerEnd], r.2)

/-- The four shapes OpenPGP.js output can take
(src/types.ts lines 1744-1748). -/
inductive PgpOutput where
  | text (s : List Char)
  | bytes (b : List Nat)
  | textStream (items : List TStreamItem)
  | byteStream (items : List StreamItem)

/-- Whether the artifact takes one of the two lazily streamed shapes. -/
def isStreamShape : PgpOutput → Bool
  | .textStream _ => true
  | .byteStream _ => true
  | _ => false

/-- src/types.ts lines 1743-1816, `Menu.writeOutputToFile`: buffered string
and byte shapes are written in a single `writeFile` call (after an
idempotent `mkdir`, not modelled as an event); stream shapes run the
pull-write loop, an armored text stream being piped through
`TextEncoderStream` first (text streams only occur for armored output). -/
def writeOutputToFile (writeOk : List Nat → Bool) :
    PgpOutput → List WEv × Bool
  | .text _ => ([.bufferedWrite], true)
  | .bytes _ => ([.bufferedWrite], true)
  | .textStream items => writeStreamToFile writeOk (encodeItems items)
  | .byteStream items => writeStreamToFile writeOk items

/-- One adjacent event pair violates the backpressure discipline exactly
when a `writer.write` is immediately followed by the next `reader.read()`
without the write's completion having been awaited in between. -/
def okStep (a : WEv) (next : Option WEv) : Bool :=
  match a with
  | .writeChunk _ =>
    match next with
    | some .readAwait => false
    | _ => true
  | _ => true

/-- Scans an event trace for a violation of the backpressure discipline. -/
def writesAwaitedBeforeRead : List WEv → Bool
  | [] => true
  | a :: rest => okStep a rest.head? && writesAwaitedBeforeRead rest

/-! ## BatchCoordinator (src/types.ts lines 1431-1510 `Menu.encryptFolder`
and 1643-1726 `Menu.decryptFolder`)

Each per-file loop body is embedded as a pure step function over the
accumulator state. A task record carries, besides the input path, the
outcome every effectful step of the body would produce for that file:
the `mkdir` outcome, the `outputFile.exists()` answer, the CryptoEngine
call's outcome and the `writeOutputToFile` outcome. The `try`/`catch`
inside the loop is mirrored exactly: any `throw` inside the body — the
`abort` collision `throw` included, since it is lexically inside the same
`try` — lands in the per-file `catch`, which appends `{file, error}` to
`failures` and lets the loop continue. -/

deriving instance DecidableEq for Except

/-- One element of the `failures` array: `{file: filePath, error: message}`. -/
structure FailureEntry where
  file : List Char
  error : List Char
deriving DecidableEq, Repr

/-- The message of the collision-abort `throw`
(src/types.ts lines 1466 and 1664). -/
def abortMessage : List Char :=
  "Output file exists; aborting batch.".data

/-- One file of an encrypt-folder run together with the outcomes of its
effectful steps. -/
structure EncTask where
  file : List Char
  mkdirOk : Except (List Char) Unit
  existsOut : Bool
  encryptResult : Except (List Char) Unit
  writeOk : Except (List Char) Unit
deriving DecidableEq, Repr

/-- Accumulator of `encryptFolder` (src/types.ts lines 1431-1433). -/
structure EncState where
  encryptedCount : Nat
  skippedCount : Nat
  failures : List FailureEntry
deriving DecidableEq, Repr

/-- The per-file `catch` block (src/types.ts lines 1483-1489). -/
def pushEncFailure (st : EncState) (p e : List Char) : EncState :=
  ⟨st.encryptedCount, st.skippedCount, st.failures ++ [⟨p, e⟩]⟩

/-- Steps 3-5 of the body: encrypt, write, count
(src/types.ts lines 1471-1482). -/
def encAttempt (st : EncState) (t : EncTask) : EncState :=
  match t.encryptResult with
  | .error e => pushEncFailure st t.file e
  | .ok _ =>
    match t.writeOk with
    | .error e => pushEncFailure st t.file e
    | .ok _ => ⟨st.encryptedCount + 1, st.skippedCount, st.failures⟩

/-- The whole loop body for one file (src/types.ts lines 1456-1489):
`mkdir`, the existence check with the collision policy, then the encrypt
attempt; every thrown error is caught by the per-file `catch`. -/
def encStep (pol : OutputPolicy) (st : EncState) (t : EncTask) : EncState :=
  match t.mkdirOk with
  | .error e => pushEncFailure st t.file e
  | .ok _ =>
    if t.existsOut then
      match pol with
      | .skip => ⟨st.encryptedCount, st.skippedCount + 1, st.failures⟩
      | .abort => pushEncFailure st t.file abortMessage
      | .overwrite => encAttempt st t
    else encAttempt st t

/-- The `for (const filePath of filteredFiles)` loop of `encryptFolder`
(src/types.ts lines 1452-1490) from the zeroed accumulator. -/
def encryptFolderRun (pol : OutputPolicy) (tasks : List EncTask) : EncState :=
  tasks.foldl (encStep pol) ⟨0, 0, []⟩

/-- One file of a decrypt-folder run; the CryptoEngine success carries
`result.verified` (`optional boolean` — absent when no signature was
checked). -/
structure DecTask where
  file : List Char
  mkdirOk : Except (List Char) Unit
  existsOut : Bool
  decryptResult : Except (List Char) (Option Bool)
  writeOk : Except (List Char) Unit
deriving DecidableEq, Repr

/-- Accumulator of `decryptFolder` (src/types.ts lines 1643-1646). -/
structure DecState where
  decryptedCount : Nat
  skippedCount : Nat
  failures : List FailureEntry
  signatureFailures : List (List Char)
deriving DecidableEq, Repr

/-- The per-file `catch` block (src/types.ts lines 1693-1698). -/
def pushDecFailure (st : DecState) (p e : List Char) : DecState :=
  ⟨st.decryptedCount, st.skippedCount, st.failures ++ [⟨p, e⟩],
    st.signatureFailures⟩

/-- Decrypt, write, count, then the separate signature accounting
(src/types.ts lines 1677-1692): `decryptedCount` is incremented on a
successful write, and the file is afterwards appended to
`signatureFailures` exactly when verification ran and
`result.verified === false`. -/
def decAttempt (verifySigs : Bool) (st : DecState) (t : DecTask) : DecState :=
  match t.decryptResult with
  | .error e => pushDecFailure st t.file e
  | .ok verified =>
    match t.writeOk with
    | .error e => pushDecFailure st t.file e
    | .ok _ =>
      if verifySigs && verified == some false then
        ⟨st.decryptedCount + 1, st.skippedCount, st.failures,
          st.signatureFailures ++ [t.file]⟩
      else ⟨st.decryptedCount + 1, st.skippedCount, st.failures,
        st.signatureFailures⟩

/-- The whole loop body for one file of `decryptFolder`
(src/types.ts lines 1655-1698). -/
def decStep (verifySigs : Bool) (pol : OutputPolicy) (st : DecState)
    (t : DecTask) : DecState :=
  match t.mkdirOk with
  | .error e => pushDecFailure st t.file e
  | .ok _ =>
    if t.existsOut then
      match pol with
      | .skip => ⟨st.decryptedCount, st.skippedCount + 1, st.failures,
          st.signatureFailures⟩
      | .abort => pushDecFailure st t.file abortMessage
      | .overwrite => decAttempt verifySigs st t
    else decAttempt verifySigs st t

/-- The `for (const filePath of filteredFiles)` loop of `decryptFolder`
(src/types.ts lines 1649-1699) from the zeroed accumulator. -/
def decryptFolderRun (verifySigs : Bool) (pol : OutputPolicy)
    (tasks : List DecTask) : DecState :=
  tasks.foldl (decStep verifySigs pol) ⟨0, 0, [], []⟩

/-- A writer that accepts every chunk (used in concrete witnesses). -/
def writerAlwaysOk : List Nat → Bool :=
  fun _ => true

/-- An encrypt task whose every step succeeds. -/
def encTaskOk (p : List Char) : EncTask :=
  ⟨p, .ok (), false, .ok (), .ok ()⟩

/-- An encrypt task whose CryptoEngine call fails with message `boom`. -/
def encTaskBad (p : List Char) : EncTask :=
  ⟨p, .ok (), false, .error "boom".data, .ok ()⟩

/-- A decrypt task that succeeds but whose signature verification result is
`false`. -/
def decTaskSigFail (p : List Char) : DecTask :=
  ⟨p, .ok (), false, .ok (some false), .ok ()⟩

/-- A decrypt task whose every step succeeds with a valid signature. -/
def decTaskOk (p : List Char) : DecTask :=
  ⟨p, .ok (), false, .ok (some true), .ok ()⟩

/-- Concrete directory tree used by the walker witness: under root `r`, a
file `a`, the output directory `out` containing `b`, a directory `d`
containing `c`, and a socket `s`. -/
def sampleFsTree : FsEntryList :=
  .cons (.file "a")
    (.cons (.dir "out" (.cons (.file "b") .nil))
      (.cons (.dir "d" (.cons (.file "c") .nil))
        (.cons (.other "s") .nil)))

/-- Total number of tasks accounted for by an encrypt-run accumulator. -/
def encOutcomeTotal (st : EncState) : Nat :=
  st.encryptedCount + st.skippedCount + st.failures.length

/-- Total number of tasks accounted for by a decrypt-run accumulator. -/
def decOutcomeTotal (st : DecState) : Nat :=
  st.decryptedCount + st.skippedCount + st.failures.length

/-! ## Claim theorems -/

/- ### Helper lemmas about the suffix functions -/

theorem knownSuffix_len_lower {s : List Char} (hs : s ∈ knownEncSuffixes) :
    s.length = 4 ∧ s.map Char.toLower = s := by
  fin_cases hs <;> exact ⟨rfl, rfl⟩

theorem endsWithKnownSuffix_append {p s : List Char} (hs : s ∈ knownEncSuffixes) :
    endsWithKnownSuffix (p ++ s) = true := by
  obtain ⟨h4, hlow⟩ := knownSuffix_len_lower hs
  have hlen : (p ++ s).length - 4 = p.length := by
    simp [List.length_append, h4]
  unfold endsWithKnownSuffix
  rw [hlen, List.drop_left' rfl, hlow]
  exact decide_eq_true hs

theorem strip_append_known {p s : List Char} (hs : s ∈ knownEncSuffixes) :
    stripEncryptedExtension (p ++ s) = p := by
  obtain ⟨h4, _⟩ := knownSuffix_len_lower hs
  have hlen : (p ++ s).length - 4 = p.length := by
    simp [List.length_append, h4]
  unfold stripEncryptedExtension
  rw [endsWithKnownSuffix_append hs, if_pos rfl, hlen, List.take_left' rfl]


/-- C9: the single-file decrypt output suggestion and the batch decrypt
suffix-stripping function are extensionally equal — both strip a trailing
`.pgp`, `.gpg` or `.asc` case-insensitively when present, and otherwise
append `.decrypted`; the two independently maintained implementations agree
on every input path. -/
theorem suggest_strip_extensionally_equal :
    ∀ p : List Char, suggestDecryptedOutputPath p = stripEncryptedExtension p :=
  fun _ => rfl

/-- C5: for every relative file path and either output format, appending the
format suffix chosen by `encryptFolder` (`.asc` for armored, `.pgp` for
binary) and then applying the strip-known-suffix rule of `decryptFolder`
yields the original relative path back, every intermediate directory
segment included. -/
theorem encrypt_decrypt_path_roundtrip :
    ∀ (fmt : PgpFormat) (f : List Char),
      stripEncryptedExtension (f ++ outputExtension fmt) = f := by
  intro fmt f
  cases fmt
  · exact strip_append_known (by decide)
  · exact strip_append_known (by decide)

/-- C6 counterexample: the two distinct relative paths `a.pgp` and `a.gpg`
both strip to the output path `a` — the decrypt path mapping is not
injective on distinct relative paths. -/
theorem strip_not_injective_counterexample :
    stripEncryptedExtension "a.pgp".data = stripEncryptedExtension "a.gpg".data ∧
      "a.pgp".data ≠ "a.gpg".data := by
  exact ⟨by decide, by decide⟩

/-- C6 amended: the decrypt output mapping is injective on any two inputs
that carry the same recognized encrypted suffix, and on any two inputs that
carry no recognized suffix at all (both get the `.decrypted` fallback);
only inputs differing in which recognized suffix they carry (or one
carrying a suffix and one not) can collide on the same output path. -/
theorem strip_injective_within_suffix_class :
    (∀ (s p q : List Char), s ∈ knownEncSuffixes →
        stripEncryptedExtension (p ++ s) = stripEncryptedExtension (q ++ s) →
        p = q) ∧
      (∀ p q : List Char, endsWithKnownSuffix p = false →
        endsWithKnownSuffix q = false →
        stripEncryptedExtension p = stripEncryptedExtension q → p = q) := by
  constructor
  · intro s p q hs h
    rwa [strip_append_known hs, strip_append_known hs] at h
  · intro p q hp hq h
    unfold stripEncryptedExtension at h
    rw [hp, hq] at h
    simp only [Bool.false_eq_true, if_false] at h
    exact List.append_cancel_right h

/-- C6 witness: the same-suffix injectivity applied at the suffix `.pgp` and
the concrete paths `a` and `a`. -/
theorem strip_injective_within_suffix_class_witness :
    "a".data = "a".data :=
  strip_injective_within_suffix_class.1 ".pgp".data "a".data "a".data
    (by decide) rfl

/-- C1: evaluating both batch loops on a run whose collision policy is
`abort` and in which a mid-batch task's output path already exists. The
`throw` raised for that task is caught by the per-file `catch` of the same
loop body, so the batch is NOT terminated: the aborting file gets a failure
entry and every later file is still processed (encrypt run: four tasks, the
third collides, yet `encryptedCount = 3` and the fourth task ran; decrypt
run: three tasks, the second collides, yet `decryptedCount = 2`). This
contradicts the claimed immediate termination with no entry for the
aborting file. -/
theorem encryptFolder_abort_not_terminating_eval :
    encryptFolderRun .abort
        [encTaskOk "f1".data, encTaskOk "f2".data,
          ⟨"f3".data, .ok (), true, .ok (), .ok ()⟩, encTaskOk "f4".data] =
      ⟨3, 0, [⟨"f3".data, abortMessage⟩]⟩ ∧
    decryptFolderRun false .abort
        [decTaskOk "g1".data, ⟨"g2".data, .ok (), true, .ok none, .ok ()⟩,
          decTaskOk "g3".data] =
      ⟨2, 0, [⟨"g2".data, abortMessage⟩], []⟩ := by
  exact ⟨by decide, by decide⟩

/-- C7: `parseExtensionFilter` splits the input on commas, trims each token,
drops empty tokens, lower-cases and dot-prefixes the remainder, and returns
the defaults exactly when no token survives: the claim's two concrete
instances hold, the defaults are returned whenever no token survives
parsing, and whenever tokens do survive every returned entry is nonempty
and begins with a dot. -/
theorem parseExtensionFilter_behavior :
    parseExtensionFilter " .PDF, txt ".data [".pgp".data] =
        [".pdf".data, ".txt".data] ∧
      parseExtensionFilter "".data [".pgp".data] = [".pgp".data] ∧
      (∀ (input : List Char) (defaults : List (List Char)),
        rawTokens input = [] → parseExtensionFilter input defaults = defaults) ∧
      (∀ (input : List Char) (defaults : List (List Char)) (t : List Char),
        rawTokens input ≠ [] → t ∈ parseExtensionFilter input defaults →
        t ≠ [] ∧ t.head? = some '.') := by
  refine ⟨by decide, by decide, ?_, ?_⟩
  · intro input defaults h
    simp [parseExtensionFilter, h]
  · intro input defaults t hne ht
    simp only [parseExtensionFilter, if_neg hne] at ht
    obtain ⟨tok, _, rfl⟩ := List.mem_map.1 ht
    unfold normalizeExtToken
    by_cases h : tok.head? = some '.'
    · rw [if_pos h]
      obtain ⟨c, cs, rfl⟩ : ∃ c cs, tok = c :: cs := by
        cases tok with
        | nil => simp at h
        | cons c cs => exact ⟨c, cs, rfl⟩
      simp only [List.head?_cons, Option.some.injEq] at h
      subst h
      refine ⟨by simp, ?_⟩
      simp [List.map_cons]
    · rw [if_neg h]
      exact ⟨by simp, by simp⟩

/-- C7 witness: the normalization guarantee applied at the claim's concrete
input ` .PDF, txt ` with defaults `{.pgp}` and the returned token `.pdf`. -/
theorem parseExtensionFilter_behavior_witness :
    ".pdf".data ≠ [] ∧ (".pdf".data).head? = some '.' :=
  parseExtensionFilter_behavior.2.2.2 " .PDF, txt ".data [".pgp".data]
    ".pdf".data (by decide) (by decide)

/- ### Walker soundness -/

mutual
theorem listFilesEntry_sound (ex rootDir : List String) (e : FsEntry)
    (p : List String) (hp : p ∈ listFilesEntry rootDir (some ex) e) :
    ¬ ex <+: p ∧
      ∃ rel, rel ≠ [] ∧ p = rootDir ++ rel ∧ entryFileAt e rel = true := by
  cases e with
  | file n =>
    unfold listFilesEntry at hp
    split at hp
    · simp at hp
    · next hex =>
      simp only [List.mem_singleton] at hp
      subst hp
      refine ⟨by simpa [isExcluded] using hex, [n], by simp, rfl, ?_⟩
      simp [entryFileAt]
  | dir n children =>
    unfold listFilesEntry at hp
    split at hp
    · simp at hp
    · obtain ⟨h1, rel, hne, hrel, hfa⟩ :=
        listFilesRecursive_sound ex (rootDir ++ [n]) children p hp
      refine ⟨h1, n :: rel, by simp, by simp [hrel], ?_⟩
      simp [entryFileAt, hfa]
  | other n =>
    unfold listFilesEntry at hp
    split at hp <;> simp at hp

theorem listFilesRecursive_sound (ex rootDir : List String) (es : FsEntryList)
    (p : List String) (hp : p ∈ listFilesRecursive rootDir (some ex) es) :
    ¬ ex <+: p ∧
      ∃ rel, rel ≠ [] ∧ p = rootDir ++ rel ∧ listFileAt es rel = true := by
  cases es with
  | nil => simp [listFilesRecursive] at hp
  | cons e rest =>
    unfold listFilesRecursive at hp
    rcases List.mem_append.1 hp with hp | hp
    · obtain ⟨h1, rel, hne, hrel, hfa⟩ :=
        listFilesEntry_sound ex rootDir e p hp
      exact ⟨h1, rel, hne, hrel, by simp [listFileAt, hfa]⟩
    · obtain ⟨h1, rel, hne, hrel, hfa⟩ :=
        listFilesRecursive_sound ex rootDir rest p hp
      exact ⟨h1, rel, hne, hrel, by simp [listFileAt, hfa]⟩
end

theorem isExcluded_none (p : List String) : isExcluded none p = false :=
  rfl

mutual
theorem listFilesEntry_prune (ex rootDir : List String) (e : FsEntry)
    (hne : isExcluded (some ex) (rootDir ++ [e.name]) = false) :
    listFilesEntry rootDir (some ex) e =
      listFilesEntry rootDir none (pruneEntry ex rootDir e) := by
  cases e with
  | file n =>
    simp only [FsEntry.name] at hne
    simp only [listFilesEntry, pruneEntry, hne, isExcluded_none,
      Bool.false_eq_true, if_false]
  | dir n children =>
    simp only [FsEntry.name] at hne
    simp only [listFilesEntry, pruneEntry, hne, isExcluded_none,
      Bool.false_eq_true, if_false]
    exact listFilesRecursive_prune ex (rootDir ++ [n]) children
  | other n =>
    simp only [FsEntry.name] at hne
    simp only [listFilesEntry, pruneEntry, hne, isExcluded_none,
      Bool.false_eq_true, if_false]

theorem listFilesRecursive_prune (ex rootDir : List String)
    (es : FsEntryList) :
    listFilesRecursive rootDir (some ex) es =
      listFilesRecursive rootDir none (pruneList ex rootDir es) := by
  cases es with
  | nil => rfl
  | cons e rest =>
    cases hex : isExcluded (some ex) (rootDir ++ [e.name]) with
    | true =>
      have hplist : pruneList ex rootDir (.cons e rest) =
          pruneList ex rootDir rest := by
        show (if isExcluded (some ex) (rootDir ++ [e.name]) = true then
            pruneList ex rootDir rest
          else .cons (pruneEntry ex rootDir e) (pruneList ex rootDir rest)) =
          pruneList ex rootDir rest
        rw [if_pos hex]
      have hdrop : listFilesEntry rootDir (some ex) e = [] := by
        cases e with
        | file n =>
          simp only [FsEntry.name] at hex
          simp [listFilesEntry, hex]
        | dir n children =>
          simp only [FsEntry.name] at hex
          simp [listFilesEntry, hex]
        | other n =>
          simp only [FsEntry.name] at hex
          simp [listFilesEntry, hex]
      rw [hplist]
      show listFilesEntry rootDir (some ex) e ++
          listFilesRecursive rootDir (some ex) rest =
        listFilesRecursive rootDir none (pruneList ex rootDir rest)
      rw [hdrop, List.nil_append]
      exact listFilesRecursive_prune ex rootDir rest
    | false =>
      have hplist : pruneList ex rootDir (.cons e rest) =
          .cons (pruneEntry ex rootDir e) (pruneList ex rootDir rest) := by
        show (if isExcluded (some ex) (rootDir ++ [e.name]) = true then
            pruneList ex rootDir rest
          else .cons (pruneEntry ex rootDir e) (pruneList ex rootDir rest)) =
          .cons (pruneEntry ex rootDir e) (pruneList ex rootDir rest)
        rw [hex]
        simp
      rw [hplist]
      show listFilesEntry rootDir (some ex) e ++
          listFilesRecursive rootDir (some ex) rest =
        listFilesEntry rootDir none (pruneEntry ex rootDir e) ++
          listFilesRecursive rootDir none (pruneList ex rootDir rest)
      rw [listFilesEntry_prune ex rootDir e hex,
        listFilesRecursive_prune ex rootDir rest]
end

/-- C4: the recursive walk never yields a path equal to the canonicalized
exclude path or nested under it (the exclude segment list is a prefix of
neither), everything yielded is a plain regular file of the walked tree
addressed by a nonempty relative path below the root, and the excluded
subtree is pruned entirely before yielding or recursing: walking with the
exclusion equals walking the tree from which the excluded entries have
been removed at every depth. -/
theorem listFilesRecursive_excludes_and_yields_files :
    ∀ (ex rootDir : List String) (entries : FsEntryList),
      (∀ p : List String, p ∈ listFilesRecursive rootDir (some ex) entries →
          ¬ ex <+: p ∧
            ∃ rel, rel ≠ [] ∧ p = rootDir ++ rel ∧
              listFileAt entries rel = true) ∧
        listFilesRecursive rootDir (some ex) entries =
          listFilesRecursive rootDir none (pruneList ex rootDir entries) :=
  fun ex rootDir entries =>
    ⟨fun p hp => listFilesRecursive_sound ex rootDir entries p hp,
      listFilesRecursive_prune ex rootDir entries⟩

/-- C4 witness: walking the sample tree rooted at `r` with the nested output
directory `r/out` excluded yields `r/d/c`, which is outside the excluded
subtree and is a plain file of the tree. -/
theorem listFilesRecursive_excludes_witness :
    ¬ (["r", "out"] : List String) <+: ["r", "d", "c"] ∧
      ∃ rel, rel ≠ [] ∧ (["r", "d", "c"] : List String) = ["r"] ++ rel ∧
        listFileAt sampleFsTree rel = true :=
  (listFilesRecursive_excludes_and_yields_files ["r", "out"] ["r"]
      sampleFsTree).1
    ["r", "d", "c"] (by decide)

/- ### Batch loop lemmas -/

theorem encStep_fail_eval (pol : OutputPolicy) (st : EncState) (t : EncTask)
    (e : List Char) (hm : t.mkdirOk = .ok ())
    (hc : t.existsOut = false ∨ pol = .overwrite)
    (hf : t.encryptResult = .error e ∨
      (t.encryptResult = .ok () ∧ t.writeOk = .error e)) :
    encStep pol st t = pushEncFailure st t.file e := by
  have hatt : encAttempt st t = pushEncFailure st t.file e := by
    unfold encAttempt
    rcases hf with hf | ⟨hf1, hf2⟩
    · rw [hf]
    · rw [hf1, hf2]
  unfold encStep
  rw [hm]
  rcases hc with hc | hc
  · rw [hc]
    simpa using hatt
  · subst hc
    cases hex : t.existsOut <;> simpa using hatt

theorem decStep_fail_eval (vs : Bool) (pol : OutputPolicy) (st : DecState)
    (t : DecTask) (e : List Char) (hm : t.mkdirOk = .ok ())
    (hc : t.existsOut = false ∨ pol = .overwrite)
    (hf : t.decryptResult = .error e ∨
      (∃ v, t.decryptResult = .ok v ∧ t.writeOk = .error e)) :
    decStep vs pol st t = pushDecFailure st t.file e := by
  have hatt : decAttempt vs st t = pushDecFailure st t.file e := by
    unfold decAttempt
    rcases hf with hf | ⟨v, hf1, hf2⟩
    · rw [hf]
    · rw [hf1, hf2]
  unfold decStep
  rw [hm]
  rcases hc with hc | hc
  · rw [hc]
    simpa using hatt
  · subst hc
    cases hex : t.existsOut <;> simpa using hatt

theorem encAttempt_failures_mono (st : EncState) (t : EncTask) :
    ∃ d, (encAttempt st t).failures = st.failures ++ d := by
  unfold encAttempt
  cases t.encryptResult with
  | error e => exact ⟨_, rfl⟩
  | ok u =>
    cases t.writeOk with
    | error e => exact ⟨_, rfl⟩
    | ok v =>
      refine ⟨[], ?_⟩
      simp

theorem encStep_failures_mono (pol : OutputPolicy) (st : EncState)
    (t : EncTask) :
    ∃ d, (encStep pol st t).failures = st.failures ++ d := by
  unfold encStep
  cases t.mkdirOk with
  | error e => exact ⟨_, rfl⟩
  | ok u =>
    cases t.existsOut
    · exact encAttempt_failures_mono st t
    · cases pol with
      | skip =>
        refine ⟨[], ?_⟩
        simp
      | abort => exact ⟨_, rfl⟩
      | overwrite => exact encAttempt_failures_mono st t

theorem decAttempt_failures_mono (vs : Bool) (st : DecState) (t : DecTask) :
    ∃ d, (decAttempt vs st t).failures = st.failures ++ d := by
  unfold decAttempt
  cases t.decryptResult with
  | error e => exact ⟨_, rfl⟩
  | ok v =>
    cases t.writeOk with
    | error e => exact ⟨_, rfl⟩
    | ok u =>
      refine ⟨[], ?_⟩
      by_cases h : (vs && v == some false) = true
      · simp [h]
      · simp [h]

theorem decStep_failures_mono (vs : Bool) (pol : OutputPolicy) (st : DecState)
    (t : DecTask) :
    ∃ d, (decStep vs pol st t).failures = st.failures ++ d := by
  unfold decStep
  cases t.mkdirOk with
  | error e => exact ⟨_, rfl⟩
  | ok u =>
    cases t.existsOut
    · exact decAttempt_failures_mono vs st t
    · cases pol with
      | skip =>
        refine ⟨[], ?_⟩
        simp
      | abort => exact ⟨_, rfl⟩
      | overwrite => exact decAttempt_failures_mono vs st t

theorem encFold_failures_mono (pol : OutputPolicy) (l : List EncTask) :
    ∀ st : EncState,
      ∃ d, (List.foldl (encStep pol) st l).failures = st.failures ++ d := by
  induction l with
  | nil => exact fun st => ⟨[], by simp⟩
  | cons t rest ih =>
    intro st
    obtain ⟨d1, h1⟩ := encStep_failures_mono pol st t
    obtain ⟨d2, h2⟩ := ih (encStep pol st t)
    exact ⟨d1 ++ d2, by rw [List.foldl_cons, h2, h1, List.append_assoc]⟩

theorem decFold_failures_mono (vs : Bool) (pol : OutputPolicy)
    (l : List DecTask) :
    ∀ st : DecState,
      ∃ d, (List.foldl (decStep vs pol) st l).failures = st.failures ++ d := by
  induction l with
  | nil => exact fun st => ⟨[], by simp⟩
  | cons t rest ih =>
    intro st
    obtain ⟨d1, h1⟩ := decStep_failures_mono vs pol st t
    obtain ⟨d2, h2⟩ := ih (decStep vs pol st t)
    exact ⟨d1 ++ d2, by rw [List.foldl_cons, h2, h1, List.append_assoc]⟩

theorem encAttempt_total (st : EncState) (t : EncTask) :
    encOutcomeTotal (encAttempt st t) = encOutcomeTotal st + 1 := by
  unfold encAttempt encOutcomeTotal pushEncFailure
  cases t.encryptResult with
  | error e =>
    simp [List.length_append]
    omega
  | ok u =>
    cases t.writeOk with
    | error e =>
      simp [List.length_append]
      omega
    | ok v => simp [Nat.add_right_comm]

theorem encStep_total (pol : OutputPolicy) (st : EncState) (t : EncTask) :
    encOutcomeTotal (encStep pol st t) = encOutcomeTotal st + 1 := by
  unfold encStep
  cases t.mkdirOk with
  | error e =>
    unfold encOutcomeTotal pushEncFailure
    simp [List.length_append]
    omega
  | ok u =>
    cases t.existsOut
    · exact encAttempt_total st t
    · cases pol with
      | skip =>
        unfold encOutcomeTotal
        simp [Nat.add_right_comm, Nat.add_assoc]
        omega
      | abort =>
        unfold encOutcomeTotal pushEncFailure
        simp [List.length_append]
        omega
      | overwrite => exact encAttempt_total st t

theorem decAttempt_total (vs : Bool) (st : DecState) (t : DecTask) :
    decOutcomeTotal (decAttempt vs st t) = decOutcomeTotal st + 1 := by
  unfold decAttempt decOutcomeTotal pushDecFailure
  cases t.decryptResult with
  | error e =>
    simp [List.length_append]
    omega
  | ok v =>
    cases t.writeOk with
    | error e =>
      simp [List.length_append]
      omega
    | ok u =>
      by_cases h : (vs && v == some false) = true
      · simp [h, Nat.add_right_comm]
      · simp [h, Nat.add_right_comm]

theorem decStep_total (vs : Bool) (pol : OutputPolicy) (st : DecState)
    (t : DecTask) :
    decOutcomeTotal (decStep vs pol st t) = decOutcomeTotal st + 1 := by
  unfold decStep
  cases t.mkdirOk with
  | error e =>
    unfold decOutcomeTotal pushDecFailure
    simp [List.length_append]
    omega
  | ok u =>
    cases t.existsOut
    · exact decAttempt_total vs st t
    · cases pol with
      | skip =>
        unfold decOutcomeTotal
        simp [Nat.add_right_comm, Nat.add_assoc]
        omega
      | abort =>
        unfold decOutcomeTotal pushDecFailure
        simp [List.length_append]
        omega
      | overwrite => exact decAttempt_total vs st t

theorem encFold_total (pol : OutputPolicy) (l : List EncTask) :
    ∀ st : EncState,
      encOutcomeTotal (List.foldl (encStep pol) st l) =
        encOutcomeTotal st + l.length := by
  induction l with
  | nil => intro st; simp
  | cons t rest ih =>
    intro st
    rw [List.foldl_cons, ih (encStep pol st t), encStep_total]
    simp [Nat.add_assoc, Nat.add_comm 1 rest.length]

theorem decFold_total (vs : Bool) (pol : OutputPolicy) (l : List DecTask) :
    ∀ st : DecState,
      decOutcomeTotal (List.foldl (decStep vs pol) st l) =
        decOutcomeTotal st + l.length := by
  induction l with
  | nil => intro st; simp
  | cons t rest ih =>
    intro st
    rw [List.foldl_cons, ih (decStep vs pol st t), decStep_total]
    simp [Nat.add_assoc, Nat.add_comm 1 rest.length]

/-- C3: in both batch loops every task is accounted for exactly once —
at the end of any run, processed + skipped + |failures| equals the number
of tasks in the filtered input list. (In this code the `abort` collision
never truncates the run — the throw is caught by the per-file catch, see
the C1 evaluation — so the identity holds for every run, which subsumes
the claim's non-abort case and leaves its truncation case vacuous.) -/
theorem batch_counts_partition :
    (∀ (pol : OutputPolicy) (tasks : List EncTask),
        (encryptFolderRun pol tasks).encryptedCount +
            (encryptFolderRun pol tasks).skippedCount +
            (encryptFolderRun pol tasks).failures.length = tasks.length) ∧
      ∀ (vs : Bool) (pol : OutputPolicy) (tasks : List DecTask),
        (decryptFolderRun vs pol tasks).decryptedCount +
            (decryptFolderRun vs pol tasks).skippedCount +
            (decryptFolderRun vs pol tasks).failures.length = tasks.length := by
  constructor
  · intro pol tasks
    have h := encFold_total pol tasks ⟨0, 0, []⟩
    simpa [encryptFolderRun, encOutcomeTotal] using h
  · intro vs pol tasks
    have h := decFold_total vs pol tasks ⟨0, 0, [], []⟩
    simpa [decryptFolderRun, decOutcomeTotal] using h

/-- C2: in both batch loops, when a task's CryptoEngine transform or its
StreamSink write fails (the task having reached those steps: its mkdir
succeeded and any collision was waved through by `overwrite` or absent),
the loop appends exactly `{file, error}` for that task and continues: the
whole run equals the run that processes the remaining tasks from the
accumulator extended by that one failure entry, so no other file's outcome
is altered; and the failure entry sits after all of the earlier tasks'
entries in the failures sequence, preserving enumeration order. -/
theorem batch_per_file_failure_isolated :
    (∀ (pol : OutputPolicy) (pre post : List EncTask) (t : EncTask)
        (e : List Char), t.mkdirOk = .ok () →
        (t.existsOut = false ∨ pol = .overwrite) →
        (t.encryptResult = .error e ∨
          (t.encryptResult = .ok () ∧ t.writeOk = .error e)) →
        encryptFolderRun pol (pre ++ t :: post) =
            List.foldl (encStep pol)
              (pushEncFailure (encryptFolderRun pol pre) t.file e) post ∧
          ∃ fs, (encryptFolderRun pol (pre ++ t :: post)).failures =
            (encryptFolderRun pol pre).failures ++ ⟨t.file, e⟩ :: fs) ∧
      ∀ (vs : Bool) (pol : OutputPolicy) (pre post : List DecTask)
        (t : DecTask) (e : List Char), t.mkdirOk = .ok () →
        (t.existsOut = false ∨ pol = .overwrite) →
        (t.decryptResult = .error e ∨
          (∃ v, t.decryptResult = .ok v ∧ t.writeOk = .error e)) →
        decryptFolderRun vs pol (pre ++ t :: post) =
            List.foldl (decStep vs pol)
              (pushDecFailure (decryptFolderRun vs pol pre) t.file e) post ∧
          ∃ fs, (decryptFolderRun vs pol (pre ++ t :: post)).failures =
            (decryptFolderRun vs pol pre).failures ++ ⟨t.file, e⟩ :: fs := by
  constructor
  · intro pol pre post t e hm hc hf
    have hrun : encryptFolderRun pol (pre ++ t :: post) =
        List.foldl (encStep pol)
          (pushEncFailure (encryptFolderRun pol pre) t.file e) post := by
      unfold encryptFolderRun
      rw [List.foldl_append, List.foldl_cons,
        encStep_fail_eval pol _ t e hm hc hf]
    refine ⟨hrun, ?_⟩
    obtain ⟨fs, hfs⟩ := encFold_failures_mono pol post
      (pushEncFailure (encryptFolderRun pol pre) t.file e)
    refine ⟨fs, ?_⟩
    rw [hrun, hfs]
    simp [pushEncFailure]
  · intro vs pol pre post t e hm hc hf
    have hrun : decryptFolderRun vs pol (pre ++ t :: post) =
        List.foldl (decStep vs pol)
          (pushDecFailure (decryptFolderRun vs pol pre) t.file e) post := by
      unfold decryptFolderRun
      rw [List.foldl_append, List.foldl_cons,
        decStep_fail_eval vs pol _ t e hm hc hf]
    refine ⟨hrun, ?_⟩
    obtain ⟨fs, hfs⟩ := decFold_failures_mono vs pol post
      (pushDecFailure (decryptFolderRun vs pol pre) t.file e)
    refine ⟨fs, ?_⟩
    rw [hrun, hfs]
    simp [pushDecFailure]

/-- C2 witness: a three-task encrypt run whose middle task's CryptoEngine
call fails with `boom`: the run continues from the accumulator extended by
that failure entry, and the entry follows the first task's (empty) failure
record in order. -/
theorem batch_per_file_failure_isolated_witness :
    encryptFolderRun .overwrite
        ([encTaskOk "f1".data] ++ encTaskBad "f2".data :: [encTaskOk "f3".data]) =
        List.foldl (encStep .overwrite)
          (pushEncFailure (encryptFolderRun .overwrite [encTaskOk "f1".data])
            (encTaskBad "f2".data).file "boom".data) [encTaskOk "f3".data] ∧
      ∃ fs, (encryptFolderRun .overwrite
          ([encTaskOk "f1".data] ++ encTaskBad "f2".data ::
            [encTaskOk "f3".data])).failures =
        (encryptFolderRun .overwrite [encTaskOk "f1".data]).failures ++
          ⟨(encTaskBad "f2".data).file, "boom".data⟩ :: fs :=
  batch_per_file_failure_isolated.1 .overwrite [encTaskOk "f1".data]
    [encTaskOk "f3".data] (encTaskBad "f2".data) "boom".data rfl
    (Or.inl rfl) (Or.inl rfl)

/-- C10: in a folder-decrypt run with signature verification enabled, a task
that decrypts and writes successfully but whose verification result is
`false` is counted as processed (`decryptedCount + 1`) and its path is
appended to `signatureFailures` only — `failures` and `skippedCount` are
untouched — and the batch goes on to fold the remaining tasks from that
state: a signature failure alone never produces a failure entry nor stops
the batch. -/
theorem decryptFolder_signature_failure_separate :
    ∀ (pol : OutputPolicy) (pre post : List DecTask) (t : DecTask),
      t.mkdirOk = .ok () → (t.existsOut = false ∨ pol = .overwrite) →
      t.decryptResult = .ok (some false) → t.writeOk = .ok () →
      decStep true pol (decryptFolderRun true pol pre) t =
          ⟨(decryptFolderRun true pol pre).decryptedCount + 1,
            (decryptFolderRun true pol pre).skippedCount,
            (decryptFolderRun true pol pre).failures,
            (decryptFolderRun true pol pre).signatureFailures ++ [t.file]⟩ ∧
        decryptFolderRun true pol (pre ++ t :: post) =
          List.foldl (decStep true pol)
            (decStep true pol (decryptFolderRun true pol pre) t) post := by
  intro pol pre post t hm hc hd hw
  have hstep : ∀ st : DecState, decStep true pol st t =
      ⟨st.decryptedCount + 1, st.skippedCount, st.failures,
        st.signatureFailures ++ [t.file]⟩ := by
    intro st
    have hatt : decAttempt true st t =
        ⟨st.decryptedCount + 1, st.skippedCount, st.failures,
          st.signatureFailures ++ [t.file]⟩ := by
      unfold decAttempt
      rw [hd, hw]
      simp
    unfold decStep
    rw [hm]
    rcases hc with hc | hc
    · rw [hc]
      simpa using hatt
    · subst hc
      cases hex : t.existsOut <;> simpa using hatt
  refine ⟨hstep _, ?_⟩
  unfold decryptFolderRun
  rw [List.foldl_append, List.foldl_cons]

/-- C10 witness: a three-task decrypt run with verification on, whose middle
task succeeds with an invalid signature: it is counted processed, lands in
`signatureFailures` only, and the third task is still folded. -/
theorem decryptFolder_signature_failure_separate_witness :
    decStep true .overwrite
        (decryptFolderRun true .overwrite [decTaskOk "g1".data])
        (decTaskSigFail "g2".data) =
        ⟨(decryptFolderRun true .overwrite [decTaskOk "g1".data]).decryptedCount
            + 1,
          (decryptFolderRun true .overwrite [decTaskOk "g1".data]).skippedCount,
          (decryptFolderRun true .overwrite [decTaskOk "g1".data]).failures,
          (decryptFolderRun true .overwrite
              [decTaskOk "g1".data]).signatureFailures ++
            [(decTaskSigFail "g2".data).file]⟩ ∧
      decryptFolderRun true .overwrite
          ([decTaskOk "g1".data] ++ decTaskSigFail "g2".data ::
            [decTaskOk "g3".data]) =
        List.foldl (decStep true .overwrite)
          (decStep true .overwrite
            (decryptFolderRun true .overwrite [decTaskOk "g1".data])
            (decTaskSigFail "g2".data)) [decTaskOk "g3".data] :=
  decryptFolder_signature_failure_separate .overwrite [decTaskOk "g1".data]
    [decTaskOk "g3".data] (decTaskSigFail "g2".data) rfl (Or.inl rfl) rfl rfl

/- ### StreamSink lemmas -/

theorem streamWriteLoop_scan (writeOk : List Nat → Bool) :
    ∀ items : List StreamItem,
      writesAwaitedBeforeRead
        ((streamWriteLoop writeOk items).1 ++ [WEv.releaseLock, WEv.writerEnd]) =
        true := by
  intro items
  induction items with
  | nil => rfl
  | cons i rest ih =>
    cases i with
    | readError m => rfl
    | chunk d =>
      cases d with
      | none =>
        simp [streamWriteLoop, writesAwaitedBeforeRead, okStep, ih]
      | some c =>
        by_cases h : writeOk c = true
        · simp [streamWriteLoop, h, writesAwaitedBeforeRead, okStep, ih]
        · simp [streamWriteLoop, h, writesAwaitedBeforeRead, okStep]

/-- C8: for every artifact shape, the backpressure scan of the events of
`writeOutputToFile` never finds a `writer.write` immediately followed by
the next `reader.read()` (the next chunk is requested only after the
previous write completed), and in the two streaming shapes the trace ends
with `reader.releaseLock()` followed by `writer.end()` — both handles are
released on every exit path, whether the stream was exhausted, a read
rejected, or a write failed. -/
theorem writeOutputToFile_releases_and_backpressures :
    ∀ (writeOk : List Nat → Bool) (out : PgpOutput),
      writesAwaitedBeforeRead (writeOutputToFile writeOk out).1 = true ∧
        (isStreamShape out = true →
          [WEv.releaseLock, WEv.writerEnd] <:+ (writeOutputToFile writeOk out).1) := by
  intro writeOk out
  cases out with
  | text s =>
    refine ⟨rfl, ?_⟩
    intro h
    simp [isStreamShape] at h
  | bytes b =>
    refine ⟨rfl, ?_⟩
    intro h
    simp [isStreamShape] at h
  | textStream items =>
    exact ⟨streamWriteLoop_scan writeOk (encodeItems items),
      fun _ => ⟨(streamWriteLoop writeOk (encodeItems items)).1, rfl⟩⟩
  | byteStream items =>
    exact ⟨streamWriteLoop_scan writeOk items,
      fun _ => ⟨(streamWriteLoop writeOk items).1, rfl⟩⟩

/-- C8 witness: a two-chunk byte stream written through an always-accepting
writer passes the backpressure scan and its trace ends with the two
release events. -/
theorem writeOutputToFile_releases_witness :
    writesAwaitedBeforeRead
        (writeOutputToFile writerAlwaysOk
          (PgpOutput.byteStream
            [StreamItem.chunk (some [1, 2]), StreamItem.chunk (some [3])])).1 =
        true ∧
      [WEv.releaseLock, WEv.writerEnd] <:+
        (writeOutputToFile writerAlwaysOk
          (PgpOutput.byteStream
            [StreamItem.chunk (some [1, 2]), StreamItem.chunk (some [3])])).1 := by
  have h := writeOutputToFile_releases_and_backpressures writerAlwaysOk
    (PgpOutput.byteStream
      [StreamItem.chunk (some [1, 2]), StreamItem.chunk (some [3])])
  exact ⟨h.1, h.2 rfl⟩
